import Mathlib

/-!
Verification of the WhatsApp-bridge delivery pipeline against its
natural-language specification.

The Go sources are shallowly embedded: byte strings become `List Char`
(one `Char` per byte), `time.Time` values become `Nat` (seconds, resp.
an abstract monotone clock), Go `int` becomes `Int` where the source can
go negative, and each stateful component becomes a pure step function on
an explicit state type, with a concurrent history modelled as the
arbitrary serialization that the mutex of the component produces.
-/

/-! ## Relay claim tracker (`internal/relay/relay.go`, `Tracker`)

`Tracker.Claim` holds a mutex, so any concurrent history of `Claim`
calls is some serialization: a list of keys in arrival order.  The
claimed-map is modelled as the list of keys marked so far. -/

/-- One `Tracker.Claim(key)` call: returns `true` and marks the key iff
the key was not already claimed (`relay.go` lines 43-51). -/
def claim (s : List String) (k : String) : Bool × List String :=
  if k ∈ s then (false, s) else (true, k :: s)

/-- Run a serialized sequence of `Claim` calls, recording the key and
result of each call. -/
def runClaims (s : List String) : List String → List (String × Bool)
  | [] => []
  | k :: ks =>
    let r := claim s k
    (k, r.1) :: runClaims r.2 ks

/-- Number of calls in a claim history that returned `true` for key `k`. -/
def trueClaims (l : List (String × Bool)) (k : String) : Nat :=
  (l.filter (fun p => p.1 == k && p.2)).length

/-! ## Fan-in merge (`Merge.Run` / `Merge.StartCleanup`)

`Merge.Run` reads events off the internal channel one at a time and
consults the `seen` set; the purge of the cleanup goroutine clears the set.
A history of the process is a list of operations: an event arriving, or
a cleanup tick firing. -/

/-- An inbound event: provider message id plus a payload tag that lets
two distinct events carry the same id. -/
structure MEvent where
  id : String
  payload : Nat
  deriving DecidableEq, Repr

/-- An operation interleaved at the `Merge`: an event delivered on the
internal channel, or the cleanup ticker purging the seen set. -/
inductive MOp where
  | ev (e : MEvent)
  | purge
  deriving DecidableEq, Repr

/-- The consumption loop of `Merge.Run` with the cleanup task interleaved:
an event whose id is in `seen` is dropped, otherwise it is marked seen
and forwarded; a purge clears `seen` (part_006 lines 38-44 and 60-63). -/
def mergeRun (seen : List String) : List MOp → List MEvent
  | [] => []
  | .ev e :: ops =>
    if e.id ∈ seen then mergeRun seen ops
    else e :: mergeRun (e.id :: seen) ops
  | .purge :: ops => mergeRun [] ops

/-- The ids of the events fed into the merge. -/
def inputIds (ops : List MOp) : List String :=
  ops.filterMap (fun o => match o with | .ev e => some e.id | .purge => none)

/-! ## Admission guard rate bucket (part_007, `Guard.Check`)

Per-sender state is a `bucket{tokens, windowEnd}`; `Guard.Check` holds
the map mutex, so the calls for one sender form a sequence.  Times are
`Nat`; `now.After(b.windowEnd)` is the strict order `b.windowEnd < now`. -/

/-- Verdict returned by `Guard.Check`. -/
inductive Verdict where
  | allow
  | deny
  | rateLimited
  deriving DecidableEq, Repr

/-- The rate bucket of a sender. -/
structure Bucket where
  tokens : Int
  windowEnd : Nat
  deriving DecidableEq, Repr

/-- The bucket logic of `Guard.Check` (part_007 lines 415-429) for one
sender: on no bucket or `now.After(windowEnd)`, install a fresh bucket
`{tokens = limit-1, windowEnd = now + window}` and allow; otherwise
rate-limit when tokens are exhausted, else decrement and allow. -/
def checkBucket (limit : Int) (window : Nat) (now : Nat) :
    Option Bucket → Verdict × Option Bucket
  | none => (.allow, some ⟨limit - 1, now + window⟩)
  | some b =>
    if b.windowEnd < now then (.allow, some ⟨limit - 1, now + window⟩)
    else if b.tokens ≤ 0 then (.rateLimited, some b)
    else (.allow, some ⟨b.tokens - 1, b.windowEnd⟩)

/-- Run `Guard.Check` for one sender at each time in `ts`, threading the
bucket state and recording `(time, verdict)` pairs. -/
def runChecks (limit : Int) (window : Nat) (b : Option Bucket) :
    List Nat → List (Nat × Verdict)
  | [] => []
  | t :: ts =>
    let r := checkBucket limit window t b
    (t, r.1) :: runChecks limit window r.2 ts

/-- Number of Allow verdicts granted at times inside `[lo, hi]`. -/
def allowsWithin (l : List (Nat × Verdict)) (lo hi : Nat) : Nat :=
  (l.filter (fun p => lo ≤ p.1 && p.1 ≤ hi && p.2 == Verdict.allow)).length

/-- Number of Allow verdicts in a check history. -/
def allowCount (l : List (Nat × Verdict)) : Nat :=
  (l.filter (fun p => p.2 == Verdict.allow)).length

/-! ## Poller cursor (`internal/delivery/poller/poller.go`, `Poller.poll`)

One poll tick: the `ListMessages` response of the provider is a list of
messages; each message either yields text (`ExtractText` ok) and is
emitted, or is skipped.  `parseTimestamp` yields a time or the zero
time, modelled as `Option Nat` (seconds).  `lastPoll` is the
DeliveryCursor. -/

/-- A message in a `ListMessages` response, reduced to what `poll`
inspects: its id, whether `ExtractText` succeeds, and its parsed
timestamp (`none` for the zero time, i.e. unparseable). -/
structure PMsg where
  id : String
  ok : Bool
  ts : Option Nat
  deriving DecidableEq, Repr

/-- One step of the `newest` tracking in `poll` (poller.go lines 90-93): a
skipped message or the zero time leaves `newest` alone; an emitted
later timestamp of an emitted message replaces it. -/
def newestStep (acc : Option Nat) (m : PMsg) : Option Nat :=
  if m.ok then
    match m.ts with
    | some t =>
      match acc with
      | none => some t
      | some n => if n < t then some t else acc
    | none => acc
  else acc

/-- The running `newest` maximum of `poll` (poller.go lines 68-94):
over the emitted messages, the latest non-zero parsed timestamp. -/
def pollNewest (msgs : List PMsg) : Option Nat :=
  msgs.foldl newestStep none

/-- One `Poller.poll` run: emit the extractable messages in order and,
when some emitted message had a non-zero timestamp, advance the cursor
to `newest + 1` second (poller.go lines 100-103); otherwise leave it. -/
def poll (lastPoll : Nat) (msgs : List PMsg) : Nat × List String :=
  let emitted := (msgs.filter (fun m => m.ok)).map (fun m => m.id)
  match pollNewest msgs with
  | none => (lastPoll, emitted)
  | some n => (n + 1, emitted)

/-- The parsed timestamps of the messages `poll` emits. -/
def emittedTss (msgs : List PMsg) : List Nat :=
  (msgs.filter (fun m => m.ok)).filterMap (fun m => m.ts)

/-! ## Webhook HMAC gate (`internal/webhook`, `validSignature` /
`Server.handleEvent`)

The HMAC-SHA256 hex digest is Go-stdlib crypto, not code of this
repository; it enters the embedding as an abstract function
`digest : secret → body → hex`.  `hmac.Equal` on two byte strings is
functionally equality (its constant-time execution is outside the
embedding).  Bodies, headers and secrets are byte strings. -/

/-- Go `strings.TrimPrefix(header, "sha256=")`: drop the prefix when
present, else return the string unchanged. -/
def trimSha256 (header : List Char) : List Char :=
  if ("sha256=".toList).isPrefixOf header then header.drop 7 else header

/-- The check `validSignature(body, header, secret)` (webhook server lines
174-183): an empty header is invalid; otherwise compare the header
minus its `sha256=` prefix with the hex HMAC digest of the body. -/
def validSignature (digest : List Char → List Char → List Char)
    (body header secret : List Char) : Bool :=
  if header = [] then false
  else trimSha256 header == digest secret body

/-- Outcome of a `POST /webhook` request. -/
inductive HandleResult where
  | unauthorized
  | badRequest
  | ok (events : List MEvent)
  deriving DecidableEq, Repr

/-- The handler `Server.handleEvent` (webhook server lines 115-171), with the JSON
decoding and payload walk abstracted into `parse : body → Option
(List MEvent)`: when an app secret is configured, an invalid signature
is rejected with 401 before anything else; then undecodable JSON is
400; otherwise the request is acknowledged and its events emitted. -/
def handleEvent (digest : List Char → List Char → List Char)
    (parse : List Char → Option (List MEvent))
    (secret header body : List Char) : HandleResult :=
  if secret ≠ [] ∧ validSignature digest body header secret = false then
    .unauthorized
  else
    match parse body with
    | none => .badRequest
    | some evs => .ok evs

/-- The events a `handleEvent` outcome emitted. -/
def resultEvents : HandleResult → List MEvent
  | .unauthorized => []
  | .badRequest => []
  | .ok evs => evs

/-! ## Configuration validation and startup
(`internal/config/config.go`, `Config.Validate`; part_014, `main`)

The fields that `Validate` and the startup checks of `main` inspect. -/

/-- ASCII lowering of a character, as Go `strings.ToLower` acts on the
ASCII mode strings `Validate` compares against. -/
def lowerChar (c : Char) : Char :=
  if 'A' ≤ c ∧ c ≤ 'Z' then Char.ofNat (c.toNat + 32) else c

/-- Go `strings.ToLower` on the (ASCII) configuration strings. -/
def lowerStr (s : String) : String :=
  ⟨s.data.map lowerChar⟩

/-- The configuration slice relevant to startup validation. -/
structure Config where
  deliveryMode : String
  pollInterval : Int
  securityMode : String
  rateLimit : Int
  rateWindow : Int
  apiKey : String
  phoneNumberID : String
  verifyToken : String
  deriving DecidableEq, Repr

/-- The procedure `Config.Validate` (config.go lines 229-280): normalizes the config
in place — poll-interval floor 30 when below 5, unknown delivery mode
becomes `"polling"`, unknown security mode becomes `"allowlist"`,
rate-limit floor 1, rate-window floor 10 — and returns the (always
`none`) error together with the normalized config.  The duplicate-number
and empty-allowlist warnings are logs only. -/
def validate (c : Config) : Option String × Config :=
  let pi := if c.pollInterval < 5 then 30 else c.pollInterval
  let dm := lowerStr c.deliveryMode
  let dm :=
    if dm = "polling" ∨ dm = "tailscale" ∨ dm = "domain" then dm
    else "polling"
  let sm :=
    if c.securityMode = "allowlist" ∨ c.securityMode = "open" then
      c.securityMode
    else "allowlist"
  let rl := if c.rateLimit < 1 then 1 else c.rateLimit
  let rw := if c.rateWindow < 10 then 10 else c.rateWindow
  (none,
   { c with
     pollInterval := pi, deliveryMode := dm, securityMode := sm,
     rateLimit := rl, rateWindow := rw })

/-- The fatal startup checks of `main` (part_014 lines 26-42): a
`Validate` error, missing API key or phone-number id, or a webhook mode
without a verify token each `log.Fatal` (exit non-zero) with the given
diagnostic; `none` means startup proceeds with the normalized config. -/
def startupError (c : Config) : Option String :=
  let v := validate c
  match v.1 with
  | some e => some ("invalid config: " ++ e)
  | none =>
    let c := v.2
    if c.apiKey = "" ∨ c.phoneNumberID = "" then
      some "KAPSO_API_KEY and KAPSO_PHONE_NUMBER_ID must be set"
    else if (c.deliveryMode = "tailscale" ∨ c.deliveryMode = "domain") ∧
        c.verifyToken = "" then
      some "KAPSO_WEBHOOK_VERIFY_TOKEN must be set when using tailscale or domain mode"
    else none

/-! ## Message segmentation (`internal/relay/relay.go`, `splitMessage`)

Go strings are byte arrays; the embedding uses one `Char` per byte.
`strings.LastIndex` is byte-level substring search from the right;
`strings.TrimSpace` trims the ASCII whitespace bytes (the multi-byte
Unicode spaces it also trims have no single-byte representation here). -/

/-- The ASCII whitespace bytes `strings.TrimSpace` trims. -/
def isSpc (c : Char) : Bool :=
  c = ' ' ∨ c = '\t' ∨ c = '\n' ∨ c = '\x0b' ∨ c = '\x0c' ∨ c = '\r'

/-- Go `strings.TrimSpace`: drop whitespace from both ends. -/
def trimSpace (s : List Char) : List Char :=
  ((s.dropWhile isSpc).reverse.dropWhile isSpc).reverse

/-- Whether `pat` occurs at the start of `s`. -/
def matchesAt (pat s : List Char) : Bool :=
  match pat, s with
  | [], _ => true
  | _ :: _, [] => false
  | p :: ps, c :: cs => p = c && matchesAt ps cs

/-- The largest index at which `pat` occurs in `s`, if any. -/
def lastIdx (pat s : List Char) : Option Nat :=
  ((List.range (s.length + 1)).filter (fun i => matchesAt pat (s.drop i))).getLast?

/-- Go `strings.LastIndex(s, pat)`: the byte index of the last
occurrence of `pat` in `s`, or `-1` when there is none. -/
def goLastIndex (pat s : List Char) : Int :=
  match lastIdx pat s with
  | some i => (i : Int)
  | none => -1

/-- One pass of the sentence-separator scan of `splitMessage`
(relay.go lines 251-259): for separator `sep`, when its last occurrence
is at `i ≥ minSplit`, raise the running split position to `i + 1` if
that is larger. -/
def sentStep (chunk : List Char) (minSplit : Int) (acc : Int)
    (sep : List Char) : Int :=
  let i := goLastIndex sep chunk
  if minSplit ≤ i then (if acc < i + 1 then i + 1 else acc) else acc

/-- The sentence-separator split position: the scan over `". "`, `"? "`,
`"! "` starting from `-1`. -/
def sentSplitPos (chunk : List Char) (minSplit : Int) : Int :=
  [['.', ' '], ['?', ' '], ['!', ' ']].foldl (sentStep chunk minSplit) (-1)

/-- The byte position at which one `splitMessage` loop iteration cuts
`text` (relay.go lines 236-273): within the leading `maxLen` bytes, the
last `"\n\n"` at or past `minSplit = maxLen/4`, else the last `"\n"`,
else after the last sentence separator, else the last `" "`, else the
hard cut at `maxLen`. -/
def splitPosOf (text : List Char) (maxLen : Nat) : Nat :=
  let chunk := text.take maxLen
  let minSplit : Int := ((maxLen / 4 : Nat) : Int)
  let i1 := goLastIndex ['\n', '\n'] chunk
  if minSplit ≤ i1 then i1.toNat
  else
    let i2 := goLastIndex ['\n'] chunk
    if minSplit ≤ i2 then i2.toNat
    else
      let sp := sentSplitPos chunk minSplit
      if 0 ≤ sp then sp.toNat
      else
        let i4 := goLastIndex [' '] chunk
        if minSplit ≤ i4 then i4.toNat
        else maxLen

/-- The `splitMessage` loop (relay.go lines 236-279): while the text
exceeds `maxLen`, cut at `splitPosOf`, emit the trimmed head and
continue on the trimmed tail; once the remainder fits, append it
trimmed if non-empty.  `fuel` bounds the iteration count; every run in
this file supplies `fuel ≥ text.length`, which suffices because each
iteration strictly shortens the text (see the termination theorem). -/
def splitLoop (fuel : Nat) (text : List Char) (maxLen : Nat) :
    List (List Char) :=
  if text.length ≤ maxLen then
    (if text = [] then [] else [trimSpace text])
  else
    match fuel with
    | 0 => [trimSpace text]
    | f + 1 =>
      let k := splitPosOf text maxLen
      trimSpace (text.take k) :: splitLoop f (trimSpace (text.drop k)) maxLen

/-- The function `splitMessage(text, maxLen)` (relay.go lines 228-281): text that
already fits is returned as the single chunk, unchanged; otherwise the
splitting loop runs. -/
def splitMessage (text : List Char) (maxLen : Nat) : List (List Char) :=
  if text.length ≤ maxLen then [text] else splitLoop text.length text maxLen

/-- Every byte of `s` is whitespace. -/
def allSpace (s : List Char) : Bool :=
  s.all isSpc

/-- The relation `joinsWS cs t`: `t` is the chunks `cs` in order, interleaved with
whitespace-only segments (also before the first and after the last
chunk) — i.e. the concatenation of `cs` equals `t` up to whitespace
removed at the chunk boundaries. -/
def joinsWS : List (List Char) → List Char → Prop
  | [], t => allSpace t = true
  | c :: cs, t => ∃ w r, allSpace w = true ∧ t = w ++ c ++ r ∧ joinsWS cs r

/-! ## Theorems -/

/-! ### C1: the claim tracker grants each key at most once -/

lemma trueClaims_cons (p : String × Bool) (l : List (String × Bool))
    (k : String) :
    trueClaims (p :: l) k =
      (if p.1 == k && p.2 then 1 else 0) + trueClaims l k := by
  by_cases h : (p.1 == k && p.2) = true <;>
    (simp [trueClaims, List.filter_cons, h]; try omega)

lemma trueClaims_runClaims_of_mem (ks : List String) :
    ∀ s k, k ∈ s → trueClaims (runClaims s ks) k = 0 := by
  induction ks with
  | nil => intro s k _; simp [runClaims, trueClaims]
  | cons k' ks ih =>
    intro s k hk
    by_cases hm : k' ∈ s
    · simp only [runClaims, claim, if_pos hm, trueClaims_cons]
      simpa using ih s k hk
    · simp only [runClaims, claim, if_neg hm, trueClaims_cons]
      have hne : (k' == k) = false := by
        simp only [beq_eq_false_iff_ne]
        intro he; exact hm (he ▸ hk)
      simp only [hne, Bool.false_and, if_neg Bool.false_ne_true]
      simpa using ih (k' :: s) k (List.mem_cons_of_mem _ hk)

lemma trueClaims_runClaims_le_one (ks : List String) :
    ∀ s k, trueClaims (runClaims s ks) k ≤ 1 := by
  induction ks with
  | nil => intro s k; simp [runClaims, trueClaims]
  | cons k' ks ih =>
    intro s k
    by_cases hm : k' ∈ s
    · simp only [runClaims, claim, if_pos hm, trueClaims_cons]
      simpa using ih s k
    · simp only [runClaims, claim, if_neg hm, trueClaims_cons]
      by_cases he : k' = k
      · subst he
        have h0 : trueClaims (runClaims (k' :: s) ks) k' = 0 :=
          trueClaims_runClaims_of_mem ks (k' :: s) k' (List.mem_cons_self _ _)
        simp [h0]
      · have hne : (k' == k) = false := by
          simpa [beq_eq_false_iff_ne] using he
        simp only [hne, Bool.false_and, if_neg Bool.false_ne_true]
        simpa using ih (k' :: s) k

/-- C1: over any serialized history of `Tracker.Claim` calls made by the
concurrent relay tasks of one process (the tracker starts empty, as
`NewTracker` builds it), at most one call returns `true` for any given
key; hence at most one relay task delivers a given assistant turn, and
two successful claims are always for distinct keys. -/
theorem tracker_claim_at_most_once (ks : List String) (k : String) :
    trueClaims (runClaims [] ks) k ≤ 1 :=
  trueClaims_runClaims_le_one ks [] k

/-! ### C2: merge dedup versus the cleanup purge -/

lemma mergeRun_evs_mem (evs : List MEvent) :
    ∀ seen x, x ∈ (mergeRun seen (evs.map MOp.ev)).map MEvent.id ↔
      (x ∈ evs.map MEvent.id ∧ x ∉ seen) := by
  induction evs with
  | nil => intro seen x; simp [mergeRun]
  | cons e evs ih =>
    intro seen x
    by_cases hm : e.id ∈ seen
    · simp only [List.map_cons, mergeRun, if_pos hm, ih seen x]
      constructor
      · rintro ⟨h1, h2⟩; exact ⟨List.mem_cons_of_mem _ h1, h2⟩
      · rintro ⟨h1, h2⟩
        rcases List.mem_cons.mp h1 with he | he
        · exact absurd (he ▸ hm) h2
        · exact ⟨he, h2⟩
    · simp only [List.map_cons, mergeRun, if_neg hm, List.mem_cons,
        ih (e.id :: seen) x]
      constructor
      · rintro (rfl | ⟨h1, h2⟩)
        · exact ⟨Or.inl rfl, hm⟩
        · exact ⟨Or.inr h1, fun hs => h2 (Or.inr hs)⟩
      · rintro ⟨rfl | h1, h2⟩
        · exact Or.inl rfl
        · by_cases hx : x = e.id
          · exact Or.inl hx
          · exact Or.inr ⟨h1, by simp [hx, h2]⟩

lemma inputIds_map_ev (l : List MEvent) :
    inputIds (l.map MOp.ev) = l.map MEvent.id := by
  induction l with
  | nil => rfl
  | cons e l ih => simpa [inputIds, List.filterMap_cons] using ih

lemma mergeRun_evs_nodup (evs : List MEvent) :
    ∀ seen, ((mergeRun seen (evs.map MOp.ev)).map MEvent.id).Nodup := by
  induction evs with
  | nil => intro seen; simp [mergeRun]
  | cons e evs ih =>
    intro seen
    by_cases hm : e.id ∈ seen
    · simpa only [List.map_cons, mergeRun, if_pos hm] using ih seen
    · simp only [List.map_cons, mergeRun, if_neg hm, List.nodup_cons]
      refine ⟨fun hc => ?_, ih (e.id :: seen)⟩
      exact ((mergeRun_evs_mem evs (e.id :: seen) e.id).mp hc).2
        (List.mem_cons_self _ _)

/-- C2 counterexample: with the cleanup purge interleaved, two distinct
events carrying the same id are both forwarded past the merge — the
claimed "no two distinct events with the same id are ever forwarded"
fails once `StartCleanup` clears the seen set. -/
theorem merge_purge_redelivers :
    mergeRun [] [MOp.ev ⟨"a", 0⟩, MOp.purge, MOp.ev ⟨"a", 1⟩] =
      [⟨"a", 0⟩, ⟨"a", 1⟩] ∧
    (MEvent.mk "a" 0) ≠ (MEvent.mk "a" 1) ∧
    (MEvent.mk "a" 0).id = (MEvent.mk "a" 1).id := by
  refine ⟨rfl, ?_, rfl⟩
  intro h
  exact Nat.zero_ne_one (congrArg MEvent.payload h)

/-- C2 amended: in any stretch of the run in which the cleanup purge
does not fire (the event sequence between two cleanup ticks, with the
seen set starting empty), no two forwarded events share an id, and the
set of forwarded ids equals the set of input ids; each purge then
re-admits at most one redelivery per id. -/
theorem merge_dedup_between_purges (evs : List MEvent) :
    ((mergeRun [] (evs.map MOp.ev)).map MEvent.id).Nodup ∧
    ∀ x, x ∈ (mergeRun [] (evs.map MOp.ev)).map MEvent.id ↔
      x ∈ inputIds (evs.map MOp.ev) := by
  refine ⟨mergeRun_evs_nodup evs [], fun x => ?_⟩
  rw [inputIds_map_ev]
  simpa using mergeRun_evs_mem evs [] x

/-! ### C3: bucket reset happens strictly after the window end -/

/-- C3 counterexample: at `now` exactly equal to the `window_end` of
the bucket, with zero tokens, `Guard.Check` does not reset the bucket
— `now.After(windowEnd)` is strict — and returns RateLimited with the
bucket unchanged, where the claim demands a reset and Allow. -/
theorem guard_boundary_no_reset :
    checkBucket 3 10 100 (some ⟨0, 100⟩) =
      (Verdict.rateLimited, some ⟨0, 100⟩) ∧
    Verdict.rateLimited ≠ Verdict.allow := by
  exact ⟨rfl, by decide⟩

/-- C3 amended: the bucket resets to `{tokens = limit-1, window_end =
now + window}` with verdict Allow exactly when there is no bucket or
`now` is strictly after `window_end` (`now > window_end`); at `now =
window_end` the window is still open, so positive tokens are
decremented with Allow and exhausted tokens give RateLimited with the
bucket unchanged. -/
theorem guard_bucket_step (limit : Int) (window now : Nat)
    (b : Option Bucket) :
    (b = none ∨ (∃ tk we, b = some ⟨tk, we⟩ ∧ we < now) →
      checkBucket limit window now b =
        (Verdict.allow, some ⟨limit - 1, now + window⟩)) ∧
    (∀ tk we, b = some ⟨tk, we⟩ → now ≤ we →
      (0 < tk →
        checkBucket limit window now b = (Verdict.allow, some ⟨tk - 1, we⟩)) ∧
      (tk ≤ 0 →
        checkBucket limit window now b =
          (Verdict.rateLimited, some ⟨tk, we⟩))) := by
  constructor
  · rintro (rfl | ⟨tk, we, rfl, hlt⟩)
    · rfl
    · simp [checkBucket, hlt]
  · rintro tk we rfl hle
    have hnot : ¬ we < now := Nat.not_lt.mpr hle
    constructor
    · intro hpos
      simp [checkBucket, hnot, Int.not_le.mpr hpos]
    · intro hz
      simp [checkBucket, hnot, hz]

/-- Witness for the amended C3 theorem at concrete inputs: a reset
strictly past the window end, a decrement inside the window, and a
rate-limit at the boundary `now = window_end`. -/
theorem guard_bucket_step_witness :
    checkBucket 3 10 101 (some ⟨0, 100⟩) = (Verdict.allow, some ⟨2, 111⟩) ∧
    checkBucket 3 10 100 (some ⟨2, 100⟩) = (Verdict.allow, some ⟨1, 100⟩) ∧
    checkBucket 3 10 100 (some ⟨0, 100⟩) =
      (Verdict.rateLimited, some ⟨0, 100⟩) := by
  refine ⟨?_, ?_, ?_⟩
  · exact (guard_bucket_step 3 10 101 (some ⟨0, 100⟩)).1
      (Or.inr ⟨0, 100, rfl, by omega⟩)
  · exact ((guard_bucket_step 3 10 100 (some ⟨2, 100⟩)).2 2 100 rfl
      (by omega)).1 (by omega)
  · exact ((guard_bucket_step 3 10 100 (some ⟨0, 100⟩)).2 0 100 rfl
      (by omega)).2 (by omega)

/-! ### C4: Allow verdicts per window -/

lemma allowCount_cons (p : Nat × Verdict) (l : List (Nat × Verdict)) :
    allowCount (p :: l) =
      (if p.2 == Verdict.allow then 1 else 0) + allowCount l := by
  by_cases h : (p.2 == Verdict.allow) = true <;>
    (simp [allowCount, List.filter_cons, h]; try omega)

lemma allowCount_open_window (limit : Int) (window : Nat) (we : Nat) :
    ∀ (ts : List Nat) (tk : Int), (∀ t ∈ ts, t ≤ we) →
      allowCount (runChecks limit window (some ⟨tk, we⟩) ts) ≤ tk.toNat := by
  intro ts
  induction ts with
  | nil => intro tk _; simp [runChecks, allowCount]
  | cons t ts ih =>
    intro tk h
    have hle : t ≤ we := h t (List.mem_cons_self _ _)
    have hnot : ¬ we < t := Nat.not_lt.mpr hle
    by_cases hz : tk ≤ 0
    · simp only [runChecks, checkBucket, if_neg hnot, if_pos hz,
        allowCount_cons]
      have := ih tk (fun x hx => h x (List.mem_cons_of_mem _ hx))
      simpa using this
    · have hpos : 0 < tk := Int.not_le.mp hz
      simp only [runChecks, checkBucket, if_neg hnot, if_neg hz,
        allowCount_cons]
      have hrec := ih (tk - 1) (fun x hx => h x (List.mem_cons_of_mem _ hx))
      simp only [beq_self_eq_true, if_true]
      omega

/-- C4 counterexample: with `rate_limit = 2` and `rate_window = 10`,
checks at times 0, 10, 11, 11 are all allowed, so the interval
`[10, 20]` — one `rate_window` long — contains 3 Allow verdicts,
exceeding `rate_limit`: the fixed-window bucket admits up to twice the
limit across a window boundary. -/
theorem guard_sliding_window_exceeded :
    allowsWithin (runChecks 2 10 none [0, 10, 11, 11]) 10 20 = 3 ∧
    ¬ (3 ≤ 2) ∧ 20 - 10 = 10 := by
  refine ⟨by decide, by decide, rfl⟩

/-- C4 amended: the bound holds per fixed bucket window, not per
arbitrary sliding interval: starting with no bucket, a first check at
`t0` opens the window `[t0, t0 + rate_window]`, and over any further
checks all lying inside that window the total number of Allow verdicts
is at most `rate_limit` (an interval straddling a window boundary can
see up to twice that). -/
theorem guard_allows_per_bucket_window (limit : Int) (window t0 : Nat)
    (ts : List Nat) (h1 : 1 ≤ limit) (h : ∀ t ∈ ts, t ≤ t0 + window) :
    allowCount (runChecks limit window none (t0 :: ts)) ≤ limit.toNat := by
  simp only [runChecks, checkBucket, allowCount_cons]
  have hrest := allowCount_open_window limit window (t0 + window) ts
    (limit - 1) h
  simp only [beq_self_eq_true, if_true]
  omega

/-- Witness for the amended C4 theorem: limit 2, window 10, first check
at time 0, further checks at times 3 and 7 inside the window; at most 2
Allow verdicts. -/
theorem guard_allows_per_bucket_window_witness :
    allowCount (runChecks 2 10 none [0, 3, 7]) ≤ (2 : Int).toNat :=
  guard_allows_per_bucket_window 2 10 0 [3, 7] (by omega) (by decide)

/-! ### C5: the poller cursor under arbitrary provider responses -/

lemma emittedTss_cons (m : PMsg) (msgs : List PMsg) :
    emittedTss (m :: msgs) =
      (if m.ok then (match m.ts with | some t => [t] | none => [])
       else []) ++ emittedTss msgs := by
  rcases m with ⟨i, ok, ts⟩
  cases ok <;> cases ts <;> simp [emittedTss, List.filter_cons]

lemma mem_emittedTss (msgs : List PMsg) (t : Nat) :
    t ∈ emittedTss msgs ↔ ∃ m ∈ msgs, m.ok = true ∧ m.ts = some t := by
  simp only [emittedTss, List.mem_filterMap, List.mem_filter]
  constructor
  · rintro ⟨m, ⟨hm, hok⟩, hts⟩; exact ⟨m, hm, hok, hts⟩
  · rintro ⟨m, hm, hok, hts⟩; exact ⟨m, ⟨hm, hok⟩, hts⟩

lemma foldl_newestStep_spec (msgs : List PMsg) :
    ∀ (acc : Option Nat) (n : Nat), msgs.foldl newestStep acc = some n →
      (acc = some n ∨ n ∈ emittedTss msgs) ∧
      (∀ a, acc = some a → a ≤ n) ∧
      (∀ t ∈ emittedTss msgs, t ≤ n) := by
  induction msgs with
  | nil =>
    intro acc n h
    simp only [List.foldl_nil] at h
    refine ⟨Or.inl h, fun a ha => ?_, by simp [emittedTss]⟩
    rw [h] at ha; exact (Option.some.inj ha).ge
  | cons m msgs ih =>
    intro acc n h
    simp only [List.foldl_cons] at h
    obtain ⟨ih1, ih2, ih3⟩ := ih (newestStep acc m) n h
    rcases m with ⟨i, ok, ts⟩
    cases ok with
    | false =>
      simp only [newestStep, Bool.false_eq_true, if_false] at ih1 ih2
      exact ⟨ih1, ih2, by simpa [emittedTss_cons] using ih3⟩
    | true =>
      cases ts with
      | none =>
        simp only [newestStep, if_true] at ih1 ih2
        exact ⟨ih1, ih2, by simpa [emittedTss_cons] using ih3⟩
      | some t =>
        have htss : emittedTss (⟨i, true, some t⟩ :: msgs) =
            t :: emittedTss msgs := by simp [emittedTss_cons]
        cases acc with
        | none =>
          simp only [newestStep, if_true] at ih1 ih2
          have htn : t ≤ n := ih2 t rfl
          refine ⟨?_, by rintro a ⟨⟩, ?_⟩
          · rcases ih1 with h1 | h1
            · exact Or.inr (htss ▸ (Option.some.inj h1 ▸
                List.mem_cons_self _ _))
            · exact Or.inr (htss ▸ List.mem_cons_of_mem _ h1)
          · rw [htss]
            intro x hx
            rcases List.mem_cons.mp hx with rfl | hx
            · exact htn
            · exact ih3 x hx
        | some a0 =>
          by_cases hlt : a0 < t
          · simp only [newestStep, if_true, if_pos hlt] at ih1 ih2
            have htn : t ≤ n := ih2 t rfl
            refine ⟨?_, fun a ha => ?_, ?_⟩
            · rcases ih1 with h1 | h1
              · exact Or.inr (htss ▸ (Option.some.inj h1 ▸
                  List.mem_cons_self _ _))
              · exact Or.inr (htss ▸ List.mem_cons_of_mem _ h1)
            · have : a0 = a := Option.some.inj ha
              omega
            · rw [htss]
              intro x hx
              rcases List.mem_cons.mp hx with rfl | hx
              · exact htn
              · exact ih3 x hx
          · simp only [newestStep, if_true, if_neg hlt] at ih1 ih2
            have ha0 : a0 ≤ n := ih2 a0 rfl
            refine ⟨?_, fun a ha => ?_, ?_⟩
            · rcases ih1 with h1 | h1
              · exact Or.inl h1
              · exact Or.inr (htss ▸ List.mem_cons_of_mem _ h1)
            · have : a0 = a := Option.some.inj ha
              omega
            · rw [htss]
              intro x hx
              rcases List.mem_cons.mp hx with rfl | hx
              · omega
              · exact ih3 x hx

lemma pollNewest_spec (msgs : List PMsg) (n : Nat)
    (h : pollNewest msgs = some n) :
    n ∈ emittedTss msgs ∧ ∀ t ∈ emittedTss msgs, t ≤ n := by
  obtain ⟨h1, _, h3⟩ := foldl_newestStep_spec msgs none n h
  rcases h1 with h1 | h1
  · exact absurd h1 (by simp)
  · exact ⟨h1, h3⟩

/-- C5 counterexample: a `ListMessages` response containing an emitted
message whose timestamp is older than the cursor makes `poll` move the
cursor backwards — from 100 down to 5+1 — so "the DeliveryCursor after
the run ≥ its value before, under any ListMessages response" fails. -/
theorem poller_cursor_regresses :
    (poll 100 [⟨"m", true, some 5⟩]).1 = 6 ∧ (6 : Nat) < 100 :=
  ⟨rfl, by omega⟩

/-- C5 amended: when every emitted message in the response carries a
timestamp at or after the current cursor (which the `since`
filter of the provider is trusted to guarantee), the cursor never regresses, and it
either stays unchanged or advances exactly to the maximum emitted
timestamp plus one second. -/
theorem poller_cursor_monotone (lastPoll : Nat) (msgs : List PMsg)
    (h : ∀ m ∈ msgs, m.ok = true → ∀ t, m.ts = some t → lastPoll ≤ t) :
    lastPoll ≤ (poll lastPoll msgs).1 ∧
    ((poll lastPoll msgs).1 = lastPoll ∨
      ∃ n, n ∈ emittedTss msgs ∧ (∀ t ∈ emittedTss msgs, t ≤ n) ∧
        (poll lastPoll msgs).1 = n + 1) := by
  cases hpn : pollNewest msgs with
  | none => simp [poll, hpn]
  | some n =>
    obtain ⟨hmem, hub⟩ := pollNewest_spec msgs n hpn
    obtain ⟨m, hm, hok, hts⟩ := (mem_emittedTss msgs n).mp hmem
    have hlp : lastPoll ≤ n := h m hm hok n hts
    constructor
    · simp only [poll, hpn]
      omega
    · exact Or.inr ⟨n, hmem, hub, by simp [poll, hpn]⟩

/-- Witness for the amended C5 theorem: cursor 3, one emitted message
with timestamp 10 ≥ 3; the cursor moves forward. -/
theorem poller_cursor_monotone_witness :
    3 ≤ (poll 3 [⟨"m", true, some 10⟩]).1 ∧
    ((poll 3 [⟨"m", true, some 10⟩]).1 = 3 ∨
      ∃ n, n ∈ emittedTss [⟨"m", true, some 10⟩] ∧
        (∀ t ∈ emittedTss [⟨"m", true, some 10⟩], t ≤ n) ∧
        (poll 3 [⟨"m", true, some 10⟩]).1 = n + 1) := by
  refine poller_cursor_monotone 3 [⟨"m", true, some 10⟩] ?_
  intro m hm _ t ht
  rcases List.mem_singleton.mp hm with rfl
  simp only [PMsg.ts, Option.some.injEq] at ht
  omega

/-! ### C8: the webhook HMAC gate -/

/-- C8: with an HMAC secret configured, a `POST /webhook` request
passes the signature gate (is accepted for processing) iff its
`X-Hub-Signature-256` header is non-empty and, after stripping the
`sha256=` prefix, equals the hex HMAC-SHA256 digest of the raw body
under the secret; a rejected request gets 401 and emits no event.  The
digest function and payload decoding are abstract parameters; the
constant-time execution of `hmac.Equal` is outside the embedding, its
value is plain equality. -/
theorem webhook_hmac_gate (digest : List Char → List Char → List Char)
    (parse : List Char → Option (List MEvent))
    (secret header body : List Char) (hsec : secret ≠ []) :
    (handleEvent digest parse secret header body ≠
        HandleResult.unauthorized ↔
      (header ≠ [] ∧ trimSha256 header = digest secret body)) ∧
    (handleEvent digest parse secret header body =
        HandleResult.unauthorized →
      resultEvents (handleEvent digest parse secret header body) = []) := by
  refine ⟨?_, fun h => by rw [h]; rfl⟩
  by_cases hh : header = []
  · subst hh
    have hsig : validSignature digest body [] secret = false := by
      simp [validSignature]
    simp [handleEvent, hsig, hsec]
  · by_cases heq : trimSha256 header = digest secret body
    · have hsig : validSignature digest body header secret = true := by
        simp [validSignature, hh, heq]
      cases hp : parse body with
      | none => simp [handleEvent, hsig, hp, hh, heq]
      | some evs => simp [handleEvent, hsig, hp, hh, heq]
    · have hsig : validSignature digest body header secret = false := by
        simp only [validSignature, if_neg hh, beq_eq_false_iff_ne, ne_eq]
        exact heq
      simp [handleEvent, hsig, hsec, heq]

/-- Witness for the C8 theorem: secret `"s"`, header `"sha256=d"`,
abstract digest returning `"d"`, empty body: the request is accepted
iff the stripped header matches the digest. -/
theorem webhook_hmac_gate_witness :
    (handleEvent (fun _ _ => ['d']) (fun _ => some []) ['s']
        ("sha256=d".toList) [] ≠ HandleResult.unauthorized ↔
      ("sha256=d".toList ≠ ([] : List Char) ∧
        trimSha256 ("sha256=d".toList) = ['d'])) ∧
    (handleEvent (fun _ _ => ['d']) (fun _ => some []) ['s']
        ("sha256=d".toList) [] = HandleResult.unauthorized →
      resultEvents (handleEvent (fun _ _ => ['d']) (fun _ => some [])
        ['s'] ("sha256=d".toList) []) = []) :=
  webhook_hmac_gate (fun _ _ => ['d']) (fun _ => some []) ['s']
    ("sha256=d".toList) [] (by decide)

/-! ### C9: startup behavior on an invalid configuration -/

/-- C9 counterexample: a config whose delivery mode is the invalid
string `"carrier"` (with credentials present) is not fatal: `Validate`
reports no error, the mode is silently replaced by `"polling"`, and
startup proceeds — where the claim demands a non-zero exit instead of
running with a substituted value. -/
theorem invalid_mode_not_fatal :
    (validate ⟨"carrier", 30, "allowlist", 5, 60, "k", "p", ""⟩).1 = none ∧
    (validate ⟨"carrier", 30, "allowlist", 5, 60, "k", "p", ""⟩).2.deliveryMode
      = "polling" ∧
    startupError ⟨"carrier", 30, "allowlist", 5, 60, "k", "p", ""⟩ = none ∧
    ("carrier" : String) ≠ "polling" := by
  exact ⟨rfl, by decide, by decide, by decide⟩

lemma startupError_eq (c : Config) :
    startupError c =
      (if c.apiKey = "" ∨ c.phoneNumberID = "" then
        some "KAPSO_API_KEY and KAPSO_PHONE_NUMBER_ID must be set"
      else if ((validate c).2.deliveryMode = "tailscale" ∨
          (validate c).2.deliveryMode = "domain") ∧ c.verifyToken = "" then
        some "KAPSO_WEBHOOK_VERIFY_TOKEN must be set when using tailscale or domain mode"
      else none) := rfl

/-- C9 amended: missing credentials, and a missing verify token under a
webhook (tailscale/domain) mode, are fatal on startup with a
diagnostic; but an invalid delivery mode is not an error — `Validate`
always returns nil and silently normalizes an unrecognized mode to
`"polling"`, so the process runs with the substituted value. -/
theorem config_startup_checks (c : Config) :
    (validate c).1 = none ∧
    (lowerStr c.deliveryMode ∉ (["polling", "tailscale", "domain"] :
        List String) →
      (validate c).2.deliveryMode = "polling") ∧
    (c.apiKey = "" ∨ c.phoneNumberID = "" →
      ∃ e, startupError c = some e) ∧
    (c.apiKey ≠ "" → c.phoneNumberID ≠ "" →
      ((validate c).2.deliveryMode = "tailscale" ∨
        (validate c).2.deliveryMode = "domain") →
      c.verifyToken = "" → ∃ e, startupError c = some e) := by
  refine ⟨rfl, fun hm => ?_, fun hcred => ?_, fun ha hp hmode ht => ?_⟩
  · simp only [List.mem_cons, List.mem_singleton, not_or] at hm
    obtain ⟨h1, h2, h3⟩ := hm
    simp [validate, h1, h2, h3]
  · exact ⟨"KAPSO_API_KEY and KAPSO_PHONE_NUMBER_ID must be set",
      by rw [startupError_eq, if_pos hcred]⟩
  · exact ⟨"KAPSO_WEBHOOK_VERIFY_TOKEN must be set when using tailscale or domain mode",
      by rw [startupError_eq, if_neg (by simp [ha, hp]),
        if_pos ⟨hmode, ht⟩]⟩

/-- Witness for the amended C9 theorem: invalid mode `"weird"` with a
missing API key — `Validate` reports no error, the mode is normalized
to `"polling"`, and the missing credential is what startup rejects. -/
theorem config_startup_checks_witness :
    (validate ⟨"weird", 30, "open", 5, 60, "", "p", ""⟩).1 = none ∧
    (validate ⟨"weird", 30, "open", 5, 60, "", "p", ""⟩).2.deliveryMode
      = "polling" ∧
    ∃ e, startupError ⟨"weird", 30, "open", 5, 60, "", "p", ""⟩ = some e :=
  ⟨(config_startup_checks _).1,
   (config_startup_checks _).2.1 (by decide),
   (config_startup_checks _).2.2.1 (Or.inl rfl)⟩

/-! ### Whitespace trimming: structural lemmas -/

lemma head?_dropWhile_spc (p : Char → Bool) (l : List Char) :
    ∀ h, (l.dropWhile p).head? = some h → p h = false := by
  induction l with
  | nil => intro h hh; simp [List.dropWhile] at hh
  | cons c l ih =>
    intro h hh
    by_cases hc : p c = true
    · rw [List.dropWhile_cons_of_pos hc] at hh
      exact ih h hh
    · rw [List.dropWhile_cons_of_neg hc] at hh
      simp only [List.head?_cons, Option.some.injEq] at hh
      rw [← hh]
      exact Bool.eq_false_iff.mpr hc

lemma dropWhile_decomp (p : Char → Bool) (l : List Char) :
    (l.takeWhile p).all p = true ∧ l = l.takeWhile p ++ l.dropWhile p :=
  ⟨List.all_eq_true.mpr (fun _ hx => List.mem_takeWhile_imp hx),
   (List.takeWhile_append_dropWhile p l).symm⟩

lemma trimSpace_decomp (s : List Char) :
    ∃ a b, allSpace a = true ∧ allSpace b = true ∧
      s = a ++ trimSpace s ++ b := by
  obtain ⟨ha1, ha2⟩ := dropWhile_decomp isSpc s
  set t := s.dropWhile isSpc with ht
  obtain ⟨hb1, hb2⟩ := dropWhile_decomp isSpc t.reverse
  refine ⟨s.takeWhile isSpc, (t.reverse.takeWhile isSpc).reverse, ha1, ?_, ?_⟩
  · simp only [allSpace, List.all_reverse]
    exact hb1
  · have htr : t = trimSpace s ++ (t.reverse.takeWhile isSpc).reverse := by
      have := congrArg List.reverse hb2
      rw [List.reverse_reverse, List.reverse_append] at this
      simpa [trimSpace, ← ht] using this
    calc s = s.takeWhile isSpc ++ t := ha2
    _ = s.takeWhile isSpc ++ (trimSpace s ++ (t.reverse.takeWhile isSpc).reverse) := by
      rw [← htr]
    _ = s.takeWhile isSpc ++ trimSpace s ++ (t.reverse.takeWhile isSpc).reverse := by
      rw [List.append_assoc]

lemma trimSpace_length_le (s : List Char) :
    (trimSpace s).length ≤ s.length := by
  obtain ⟨a, b, _, _, hab⟩ := trimSpace_decomp s
  have := congrArg List.length hab
  simp only [List.length_append] at this
  omega

lemma trimSpace_head (s : List Char) :
    ∀ h, (trimSpace s).head? = some h → isSpc h = false := by
  intro h hh
  simp only [trimSpace, List.head?_reverse] at hh
  have hne : (s.dropWhile isSpc).reverse.dropWhile isSpc ≠ [] := by
    intro hnil; rw [hnil] at hh; simp at hh
  obtain ⟨_, hd⟩ := dropWhile_decomp isSpc (s.dropWhile isSpc).reverse
  have hu : ((s.dropWhile isSpc).reverse).getLast? = some h := by
    rw [hd, List.getLast?_append_of_ne_nil _ hne]; exact hh
  rw [List.getLast?_reverse] at hu
  exact head?_dropWhile_spc isSpc s h hu

lemma trimSpace_getLast (s : List Char) :
    ∀ h, (trimSpace s).getLast? = some h → isSpc h = false := by
  intro h hh
  simp only [trimSpace, List.getLast?_reverse] at hh
  exact head?_dropWhile_spc isSpc _ h hh

lemma dropWhile_eq_self_of_head (p : Char → Bool) (l : List Char)
    (h : ∀ c, l.head? = some c → p c = false) : l.dropWhile p = l := by
  cases l with
  | nil => rfl
  | cons c l =>
    have hc : p c = false := h c rfl
    simp [List.dropWhile_cons, hc]

lemma trimSpace_eq_self (c : List Char)
    (h1 : ∀ x, c.head? = some x → isSpc x = false)
    (h2 : ∀ x, c.getLast? = some x → isSpc x = false) :
    trimSpace c = c := by
  have hd : c.dropWhile isSpc = c := dropWhile_eq_self_of_head isSpc c h1
  have hr : c.reverse.dropWhile isSpc = c.reverse := by
    refine dropWhile_eq_self_of_head isSpc c.reverse ?_
    intro x hx
    rw [List.head?_reverse] at hx
    exact h2 x hx
  simp [trimSpace, hd, hr]

lemma trimSpace_idem (s : List Char) :
    trimSpace (trimSpace s) = trimSpace s :=
  trimSpace_eq_self (trimSpace s) (trimSpace_head s) (trimSpace_getLast s)

/-! ### Substring search: `matchesAt` / `lastIdx` lemmas -/

lemma matchesAt_le_length (pat : List Char) :
    ∀ s, matchesAt pat s = true → pat.length ≤ s.length := by
  induction pat with
  | nil => intro s _; simp
  | cons p ps ih =>
    intro s h
    cases s with
    | nil => simp [matchesAt] at h
    | cons c cs =>
      simp only [matchesAt, Bool.and_eq_true] at h
      have := ih cs h.2
      simp only [List.length_cons]
      omega

lemma lastIdx_matches (pat s : List Char) (i : Nat)
    (h : lastIdx pat s = some i) : matchesAt pat (s.drop i) = true := by
  have hm := List.mem_of_getLast?_eq_some h
  exact (List.mem_filter.mp hm).2

lemma lastIdx_bound (pat s : List Char) (i : Nat)
    (h : lastIdx pat s = some i) (hp : pat ≠ []) :
    i + pat.length ≤ s.length := by
  have hmt := lastIdx_matches pat s i h
  have hle := matchesAt_le_length pat _ hmt
  rw [List.length_drop] at hle
  have hp1 : 1 ≤ pat.length := by
    cases pat with
    | nil => exact absurd rfl hp
    | cons _ _ => simp
  omega

lemma goLastIndex_branch (pat chunk : List Char) (ms : Nat) (hp : pat ≠ [])
    (h : (ms : Int) ≤ goLastIndex pat chunk) :
    ms ≤ (goLastIndex pat chunk).toNat ∧
      (goLastIndex pat chunk).toNat + pat.length ≤ chunk.length := by
  cases hL : lastIdx pat chunk with
  | none =>
    simp only [goLastIndex, hL] at h
    omega
  | some i =>
    simp only [goLastIndex, hL] at h ⊢
    have := lastIdx_bound pat chunk i hL hp
    constructor <;> omega

lemma sentStep_good (chunk : List Char) (ms acc : Int) (sep : List Char)
    (hms : 0 ≤ ms) (hsep : sep.length = 2) :
    sentStep chunk ms acc sep = acc ∨
      ∃ i : Nat, ms ≤ (i : Int) ∧ i + 2 ≤ chunk.length ∧
        sentStep chunk ms acc sep = (i : Int) + 1 := by
  simp only [sentStep]
  by_cases hc : ms ≤ goLastIndex sep chunk
  · rw [if_pos hc]
    cases hL : lastIdx sep chunk with
    | none =>
      exfalso
      simp only [goLastIndex, hL] at hc
      omega
    | some i =>
      simp only [goLastIndex, hL] at hc ⊢
      have hb := lastIdx_bound sep chunk i hL
        (by intro h0; rw [h0] at hsep; simp at hsep)
      rw [hsep] at hb
      by_cases ha : acc < (i : Int) + 1
      · rw [if_pos ha]
        exact Or.inr ⟨i, hc, hb, rfl⟩
      · rw [if_neg ha]
        exact Or.inl rfl
  · rw [if_neg hc]
    exact Or.inl rfl

lemma sentSplitPos_good (chunk : List Char) (ms : Int) (hms : 0 ≤ ms) :
    sentSplitPos chunk ms = -1 ∨
      ∃ i : Nat, ms ≤ (i : Int) ∧ i + 2 ≤ chunk.length ∧
        sentSplitPos chunk ms = (i : Int) + 1 := by
  have e : sentSplitPos chunk ms =
      sentStep chunk ms (sentStep chunk ms (sentStep chunk ms (-1)
        ['.', ' ']) ['?', ' ']) ['!', ' '] := rfl
  rw [e]
  rcases sentStep_good chunk ms
      (sentStep chunk ms (sentStep chunk ms (-1) ['.', ' ']) ['?', ' '])
      ['!', ' '] hms rfl with h3 | h3
  · rw [h3]
    rcases sentStep_good chunk ms (sentStep chunk ms (-1) ['.', ' '])
        ['?', ' '] hms rfl with h2 | h2
    · rw [h2]
      rcases sentStep_good chunk ms (-1) ['.', ' '] hms rfl with h1 | h1
      · rw [h1]
        exact Or.inl rfl
      · exact Or.inr h1
    · exact Or.inr h2
  · exact Or.inr h3

lemma length_take_of_lt (text : List Char) (maxLen : Nat)
    (hlen : maxLen < text.length) : (text.take maxLen).length = maxLen := by
  rw [List.length_take]
  omega

lemma splitPosOf_bounds (text : List Char) (maxLen : Nat)
    (h4 : 4 ≤ maxLen) (hlen : maxLen < text.length) :
    maxLen / 4 ≤ splitPosOf text maxLen ∧ 1 ≤ splitPosOf text maxLen ∧
      splitPosOf text maxLen ≤ maxLen := by
  have hms1 : 1 ≤ maxLen / 4 := by
    have h44 : 4 / 4 ≤ maxLen / 4 := Nat.div_le_div_right h4
    omega
  have hchunk := length_take_of_lt text maxLen hlen
  simp only [splitPosOf]
  split_ifs with h1 h2 h3 h4'
  · obtain ⟨hge, hub⟩ := goLastIndex_branch ['\n', '\n'] (text.take maxLen)
      (maxLen / 4) (by simp) h1
    rw [hchunk] at hub
    simp only [List.length_cons, List.length_nil] at hub
    refine ⟨hge, by omega, by omega⟩
  · obtain ⟨hge, hub⟩ := goLastIndex_branch ['\n'] (text.take maxLen)
      (maxLen / 4) (by simp) h2
    rw [hchunk] at hub
    simp only [List.length_cons, List.length_nil] at hub
    refine ⟨hge, by omega, by omega⟩
  · rcases sentSplitPos_good (text.take maxLen) ((maxLen / 4 : Nat) : Int)
        (by omega) with hg | ⟨i, hmsi, hlen2, heq⟩
    · rw [hg] at h3
      omega
    · rw [heq]
      rw [hchunk] at hlen2
      refine ⟨by omega, by omega, by omega⟩
  · obtain ⟨hge, hub⟩ := goLastIndex_branch [' '] (text.take maxLen)
      (maxLen / 4) (by simp) h4'
    rw [hchunk] at hub
    simp only [List.length_cons, List.length_nil] at hub
    refine ⟨hge, by omega, by omega⟩
  · exact ⟨Nat.div_le_self _ _, by omega, le_refl _⟩

/-! ### The segmentation loop: invariants -/

lemma splitLoop_base (fuel : Nat) (text : List Char) (maxLen : Nat)
    (h : text.length ≤ maxLen) :
    splitLoop fuel text maxLen =
      if text = [] then [] else [trimSpace text] := by
  rw [splitLoop.eq_def, if_pos h]

lemma splitLoop_step (f : Nat) (text : List Char) (maxLen : Nat)
    (h : maxLen < text.length) :
    splitLoop (f + 1) text maxLen =
      trimSpace (text.take (splitPosOf text maxLen)) ::
        splitLoop f (trimSpace (text.drop (splitPosOf text maxLen)))
          maxLen := by
  rw [splitLoop.eq_def, if_neg (not_le.mpr h)]

lemma splitLoop_rest_fuel (text : List Char) (maxLen f : Nat)
    (h4 : 4 ≤ maxLen) (hb : maxLen < text.length)
    (hf : text.length ≤ f + 1) :
    (trimSpace (text.drop (splitPosOf text maxLen))).length ≤ f := by
  obtain ⟨_, hk2, _⟩ := splitPosOf_bounds text maxLen h4 hb
  have h1 := trimSpace_length_le (text.drop (splitPosOf text maxLen))
  have h2 := List.length_drop (splitPosOf text maxLen) text
  omega

lemma splitLoop_chunks_le (maxLen : Nat) (h4 : 4 ≤ maxLen) :
    ∀ fuel text, text.length ≤ fuel →
      ∀ c ∈ splitLoop fuel text maxLen, c.length ≤ maxLen := by
  intro fuel
  induction fuel with
  | zero =>
    intro text hf c hc
    have hnil : text = [] := List.length_eq_zero.mp (Nat.le_zero.mp hf)
    subst hnil
    rw [splitLoop_base _ _ _ (by simp)] at hc
    simp at hc
  | succ f ih =>
    intro text hf c hc
    by_cases hb : text.length ≤ maxLen
    · rw [splitLoop_base _ _ _ hb] at hc
      by_cases hn : text = []
      · rw [if_pos hn] at hc
        simp at hc
      · rw [if_neg hn] at hc
        rcases List.mem_singleton.mp hc with rfl
        exact le_trans (trimSpace_length_le text) hb
    · push_neg at hb
      rw [splitLoop_step f text maxLen hb] at hc
      obtain ⟨_, _, hk3⟩ := splitPosOf_bounds text maxLen h4 hb
      rcases List.mem_cons.mp hc with rfl | hc
      · refine le_trans (trimSpace_length_le _) ?_
        rw [List.length_take]
        omega
      · exact ih _ (splitLoop_rest_fuel text maxLen f h4 hb hf) c hc

lemma joinsWS_append_right (b : List Char) (hb : allSpace b = true) :
    ∀ cs t, joinsWS cs t → joinsWS cs (t ++ b) := by
  intro cs
  induction cs with
  | nil =>
    intro t ht
    show allSpace (t ++ b) = true
    simp only [allSpace, List.all_append, Bool.and_eq_true]
    exact ⟨ht, hb⟩
  | cons c cs ih =>
    intro t ht
    obtain ⟨w, r, hw, hteq, hrec⟩ := ht
    exact ⟨w, r ++ b, hw, by rw [hteq]; simp [List.append_assoc],
      ih r hrec⟩

lemma joinsWS_append_left (a : List Char) (ha : allSpace a = true) :
    ∀ cs t, joinsWS cs t → joinsWS cs (a ++ t) := by
  intro cs t ht
  cases cs with
  | nil =>
    show allSpace (a ++ t) = true
    simp only [allSpace, List.all_append, Bool.and_eq_true]
    exact ⟨ha, ht⟩
  | cons c cs =>
    obtain ⟨w, r, hw, hteq, hrec⟩ := ht
    refine ⟨a ++ w, r, ?_, by rw [hteq]; simp [List.append_assoc], hrec⟩
    simp only [allSpace, List.all_append, Bool.and_eq_true]
    exact ⟨ha, hw⟩

lemma joinsWS_single_trim (text : List Char) :
    joinsWS [trimSpace text] text := by
  obtain ⟨a, b, ha, hb, hab⟩ := trimSpace_decomp text
  exact ⟨a, b, ha, hab, hb⟩

lemma splitLoop_joins (maxLen : Nat) (h4 : 4 ≤ maxLen) :
    ∀ fuel text, text.length ≤ fuel →
      joinsWS (splitLoop fuel text maxLen) text := by
  intro fuel
  induction fuel with
  | zero =>
    intro text hf
    have hnil : text = [] := List.length_eq_zero.mp (Nat.le_zero.mp hf)
    subst hnil
    rw [splitLoop_base _ _ _ (by simp), if_pos rfl]
    exact rfl
  | succ f ih =>
    intro text hf
    by_cases hb : text.length ≤ maxLen
    · rw [splitLoop_base _ _ _ hb]
      by_cases hn : text = []
      · subst hn
        rw [if_pos rfl]
        exact rfl
      · rw [if_neg hn]
        exact joinsWS_single_trim text
    · push_neg at hb
      rw [splitLoop_step f text maxLen hb]
      obtain ⟨a1, b1, ha1, hb1, hd1⟩ :=
        trimSpace_decomp (text.take (splitPosOf text maxLen))
      obtain ⟨a2, b2, ha2, hb2, hd2⟩ :=
        trimSpace_decomp (text.drop (splitPosOf text maxLen))
      have ihr := ih (trimSpace (text.drop (splitPosOf text maxLen)))
        (splitLoop_rest_fuel text maxLen f h4 hb hf)
      refine ⟨a1, b1 ++ a2 ++
        trimSpace (text.drop (splitPosOf text maxLen)) ++ b2, ha1, ?_, ?_⟩
      · conv_lhs => rw [← List.take_append_drop (splitPosOf text maxLen) text]
        conv_lhs => rw [hd1, hd2]
        simp [List.append_assoc]
      · have j2 := joinsWS_append_right b2 hb2 _ _ ihr
        have hba : allSpace (b1 ++ a2) = true := by
          simp only [allSpace, List.all_append, Bool.and_eq_true]
          exact ⟨hb1, ha2⟩
        have j3 := joinsWS_append_left (b1 ++ a2) hba _ _ j2
        have he : b1 ++ a2 ++
            (trimSpace (text.drop (splitPosOf text maxLen)) ++ b2) =
            b1 ++ a2 ++
              trimSpace (text.drop (splitPosOf text maxLen)) ++ b2 := by
          simp [List.append_assoc]
        rw [← he]
        exact j3

lemma splitLoop_trimmed (maxLen : Nat) (h4 : 4 ≤ maxLen) :
    ∀ fuel text, text.length ≤ fuel →
      ∀ c ∈ splitLoop fuel text maxLen, trimSpace c = c := by
  intro fuel
  induction fuel with
  | zero =>
    intro text hf c hc
    have hnil : text = [] := List.length_eq_zero.mp (Nat.le_zero.mp hf)
    subst hnil
    rw [splitLoop_base _ _ _ (by simp), if_pos rfl] at hc
    simp at hc
  | succ f ih =>
    intro text hf c hc
    by_cases hb : text.length ≤ maxLen
    · rw [splitLoop_base _ _ _ hb] at hc
      by_cases hn : text = []
      · rw [if_pos hn] at hc
        simp at hc
      · rw [if_neg hn] at hc
        rcases List.mem_singleton.mp hc with rfl
        exact trimSpace_idem text
    · push_neg at hb
      rw [splitLoop_step f text maxLen hb] at hc
      rcases List.mem_cons.mp hc with rfl | hc
      · exact trimSpace_idem _
      · exact ih _ (splitLoop_rest_fuel text maxLen f h4 hb hf) c hc

/-! ### C6, C7, C10: the segmentation claims -/

/-- C6: for every input text, `splitMessage(text, 4096)` yields chunks
of at most 4096 bytes whose left-to-right concatenation equals the
input up to whitespace-only segments removed at the chunk boundaries
(`joinsWS`). -/
theorem split_message_segments (T : List Char) :
    (∀ c ∈ splitMessage T 4096, c.length ≤ 4096) ∧
      joinsWS (splitMessage T 4096) T := by
  by_cases h : T.length ≤ 4096
  · simp only [splitMessage, if_pos h]
    refine ⟨fun c hc => ?_, ?_⟩
    · rcases List.mem_singleton.mp hc with rfl
      exact h
    · exact ⟨[], [], rfl, by simp, rfl⟩
  · push_neg at h
    simp only [splitMessage, if_neg (not_le.mpr h)]
    exact ⟨splitLoop_chunks_le 4096 (by omega) T.length T le_rfl,
           splitLoop_joins 4096 (by omega) T.length T le_rfl⟩

/-- Witness for the C6 theorem at the concrete input `"hi"`. -/
theorem split_message_segments_witness :
    (['h', 'i'] : List Char).length ≤ 4096 ∧
      joinsWS (splitMessage ['h', 'i'] 4096) ['h', 'i'] :=
  ⟨(split_message_segments ['h', 'i']).1 ['h', 'i'] (by decide),
   (split_message_segments ['h', 'i']).2⟩

/-- C7 counterexample: for input `" a"` (length ≤ max) the single chunk
returned is the input unchanged, with its leading whitespace intact —
the claimed "every chunk is trimmed, including the single chunk of a
short input" fails on the early-return path of `splitMessage`. -/
theorem split_single_chunk_untrimmed :
    splitMessage [' ', 'a'] 4096 = [[' ', 'a']] ∧
      trimSpace [' ', 'a'] = ['a'] ∧ ([' ', 'a'] : List Char) ≠ ['a'] :=
  ⟨by decide, by decide, by decide⟩

/-- C7 amended: when the input already fits (`len(text) ≤ max`) the
single chunk is the input, returned untrimmed; only when splitting
occurs (`len(text) > max`, with `max ≥ 4`) is every produced chunk
trimmed of surrounding whitespace. -/
theorem split_chunks_trimmed_when_split (text : List Char) (maxLen : Nat)
    (h4 : 4 ≤ maxLen) :
    (text.length ≤ maxLen → splitMessage text maxLen = [text]) ∧
    (maxLen < text.length →
      ∀ c ∈ splitMessage text maxLen, trimSpace c = c) := by
  refine ⟨fun h => by simp [splitMessage, h], fun h c hc => ?_⟩
  simp only [splitMessage, if_neg (not_le.mpr h)] at hc
  exact splitLoop_trimmed maxLen h4 text.length text le_rfl c hc

/-- Witness for the amended C7 theorem: `"aaaaaa"` split at max 4 gives
`["aaaa", "aa"]`, and the loop-produced chunk `"aaaa"` is trimmed. -/
theorem split_chunks_trimmed_when_split_witness :
    splitMessage ['a', 'a', 'a', 'a', 'a', 'a'] 4 =
      [['a', 'a', 'a', 'a'], ['a', 'a']] ∧
    trimSpace ['a', 'a', 'a', 'a'] = ['a', 'a', 'a', 'a'] :=
  ⟨by decide,
   (split_chunks_trimmed_when_split ['a', 'a', 'a', 'a', 'a', 'a'] 4
     (by omega)).2 (by decide) ['a', 'a', 'a', 'a'] (by decide)⟩

/-- C10: for `max ≥ 4` (so `minSplit = max/4 ≥ 1`), every accepted
split position is at least `minSplit` — the hard cut takes `max` bytes
— so each `splitMessage` loop iteration strictly shortens the working
text and the loop terminates. -/
theorem split_step_terminates (text : List Char) (maxLen : Nat)
    (h4 : 4 ≤ maxLen) (hlen : maxLen < text.length) :
    1 ≤ maxLen / 4 ∧ maxLen / 4 ≤ splitPosOf text maxLen ∧
      (trimSpace (text.drop (splitPosOf text maxLen))).length <
        text.length := by
  obtain ⟨hk1, hk2, hk3⟩ := splitPosOf_bounds text maxLen h4 hlen
  have h1 := trimSpace_length_le (text.drop (splitPosOf text maxLen))
  have h2 := List.length_drop (splitPosOf text maxLen) text
  have hms1 : 1 ≤ maxLen / 4 := by
    have h44 : 4 / 4 ≤ maxLen / 4 := Nat.div_le_div_right h4
    omega
  exact ⟨hms1, hk1, by omega⟩

/-- Witness for the C10 theorem: one split step on `"aaaaaa"` at max 4
leaves a strictly shorter remainder. -/
theorem split_step_terminates_witness :
    1 ≤ 4 / 4 ∧ 4 / 4 ≤ splitPosOf ['a', 'a', 'a', 'a', 'a', 'a'] 4 ∧
      (trimSpace (['a', 'a', 'a', 'a', 'a', 'a'].drop
        (splitPosOf ['a', 'a', 'a', 'a', 'a', 'a'] 4))).length <
        (['a', 'a', 'a', 'a', 'a', 'a'] : List Char).length :=
  split_step_terminates ['a', 'a', 'a', 'a', 'a', 'a'] 4 (by omega)
    (by decide)
